import Mathlib

/-!
Verification of the `setuptools_scm._file_finders` tree walker
(`scm_find_files`, `_link_not_in_scm`, `is_toplevel_acceptable`) against its
natural-language specification.

The embedding models POSIX path semantics: a path is a list of components
(`os.path.normcase` is the identity on POSIX, `os.sep` is `"/"`,
`os.pardir` is `".."`, `os.pathsep` is `":"`).  The filesystem is a finite
map from canonical directory paths to their entry listing, together with
the two primitives the walker consults: `realpath` (canonicalisation) and
`islink`.  `os.walk(realroot, followlinks=True)` in top-down mode, with the
source's in-place pruning of `dirnames`, is modelled as a depth-first
work-list recursion (`walkStack`) that yields exactly the same visit order:
a directory's body runs first (emitting its file entries), then its kept
subdirectories are processed in order, in front of the remaining work list.
-/

namespace FileFinder

/-- A filesystem path, as its list of components (POSIX, absolute or
relative; `os.path.normcase` is the identity). -/
abbrev Path := List String

/-- Length of the longest common component prefix of two paths, as used by
`os.path.relpath`. -/
def commonLen : Path → Path → Nat
  | a :: as, b :: bs => if a = b then commonLen as bs + 1 else 0
  | _, _ => 0

/-- Model of `os.path.relpath(p, start)` on normalised absolute component lists:
climb out of the non-common part of `start` with `".."` steps, then descend
into the non-common part of `p`; the empty relative path is `os.curdir`. -/
def relp (p start : Path) : Path :=
  let c := commonLen start p
  let ups := List.replicate (start.length - c) ".."
  let rest := p.drop c
  if ups = [] ∧ rest = [] then ["."] else ups ++ rest

/-- Join a relative component list back into a string with `os.sep`,
mirroring the string the source's `os.path.relpath` returns. -/
def joinSlash : List String → String
  | [] => ""
  | [x] => x
  | x :: xs => x ++ "/" ++ joinSlash xs

/-- The source's `os.path.relpath(...).startswith(os.pardir)` test: a
STRING prefix test on the joined relative path (so a first component that
merely begins with `".."` also passes it, exactly as in the source). -/
def startsWithPardir (r : List String) : Bool :=
  List.isPrefixOf "..".toList (joinSlash r).toList

/-- ASCII lower-casing of one character, as `str.lower` acts on the ASCII
range (sufficient for the `".ipynb"` suffix test of the source). -/
def lowerChar (c : Char) : Char :=
  if 65 ≤ c.toNat ∧ c.toNat ≤ 90 then Char.ofNat (c.toNat + 32) else c

/-- The source's `filename.lower().endswith(".ipynb")` notebook test. -/
def endsWithIpynb (f : String) : Bool :=
  List.isSuffixOf ".ipynb".toList (f.toList.map lowerChar)

/-- The filesystem a walk runs over: `realp` is
`os.path.normcase(os.path.realpath(·))`, `isLink` is `os.path.islink`, and
`tree` maps each canonical directory path to its listing, already split
into subdirectory names and file names as `os.walk` reports them
(symlinks to directories count as directories). -/
structure FS where
  realp : Path → Path
  isLink : Path → Bool
  tree : List (Path × (List String × List String))

/-- Listing lookup by canonical directory path. -/
def lookupDir : List (Path × (List String × List String)) → Path →
    Option (List String × List String)
  | [], _ => none
  | (k, v) :: rest, p => if k = p then some v else lookupDir rest p

/-- The source's `_link_not_in_scm(n)` closure: test the canonical parent
directory joined with the (case-normalised) entry name — the last
component is NOT resolved. -/
def linkNotInScm (fs : FS) (files : List Path) (rd : Path) (n : String) : Bool :=
  fs.isLink (rd ++ [n]) && !(decide ((rd ++ [n]) ∈ files))

/-- The source's in-place refiltering of `dirnames`:
`[dn for dn in dirnames if force_all_files or not _link_not_in_scm(dn)]`. -/
def keptDirs (fs : FS) (files : List Path) (force : Bool) (rd : Path)
    (dns : List String) : List String :=
  dns.filter fun dn => force || !(linkNotInScm fs files rd dn)

/-- The file loop of the walk body for one directory: `dp` is `dirpath`
(symlinks preserved), `rd` is `realdirpath`; emitted paths join the
caller's original `pth` with the path of `dirpath + filename` relative to
the canonical root `rr`. -/
def emitFiles (fs : FS) (pth rr : Path) (files : List Path) (force : Bool)
    (dp rd : Path) (fns : List String) : List Path :=
  fns.filterMap fun f =>
    if force = false ∧ linkNotInScm fs files rd f = true then none
    else if force = false ∧ endsWithIpynb f = true then none
    else if force = true ∨ fs.realp (dp ++ [f]) ∈ files then
      some (pth ++ relp (dp ++ [f]) rr)
    else none

/-- Canonical directory paths that have a listing. -/
def dirKeys (fs : FS) : List Path := fs.tree.map Prod.fst

/-- File names listed in a canonical directory (empty when the directory
has no listing). -/
def filenamesOf (fs : FS) (d : Path) : List String :=
  ((lookupDir fs.tree d).getD ([], [])).2

/-- Reachability through plain directory entries: `RealSub fs d m` holds
when `m` is reached from the canonical directory `d` by repeatedly
stepping into a listed subdirectory entry that is not a symlink and whose
canonical form is itself (a regular on-disk subdirectory).  `RealSub fs
realroot m` is what "directory under root" means for a real filesystem. -/
inductive RealSub (fs : FS) : Path → Path → Prop
  | refl (d : Path) : RealSub fs d d
  | step {d m : Path} (dn : String) (dns fns : List String)
      (hlk : lookupDir fs.tree d = some (dns, fns)) (hdn : dn ∈ dns)
      (hnl : fs.isLink (d ++ [dn]) = false)
      (hre : fs.realp (d ++ [dn]) = d ++ [dn])
      (hrest : RealSub fs (d ++ [dn]) m) : RealSub fs d m

theorem mem_dirKeys_of_lookupDir {t : List (Path × (List String × List String))}
    {k : Path} {v : List String × List String} (h : lookupDir t k = some v) :
    k ∈ t.map Prod.fst := by
  induction t with
  | nil => simp [lookupDir] at h
  | cons hd tl ih =>
    rw [lookupDir] at h
    by_cases hk : hd.1 = k
    · simp [hk]
    · simp only [List.map_cons, List.mem_cons]
      right
      exact ih (by simpa [hk] using h)

theorem length_filter_not_mem_cons_lt {l s : List Path} {a : Path}
    (ha : a ∈ l) (hs : a ∉ s) :
    (l.filter fun k => decide (k ∉ a :: s)).length <
      (l.filter fun k => decide (k ∉ s)).length := by
  induction l with
  | nil => simp at ha
  | cons b l' ih =>
    by_cases hb : b = a
    · subst hb
      have h1 : (decide (b ∉ b :: s)) = false := by simp
      have h2 : (decide (b ∉ s)) = true := by simpa using hs
      have hmono : ((l'.filter fun k => decide (k ∉ b :: s)).length ≤
          (l'.filter fun k => decide (k ∉ s)).length) := by
        apply List.Sublist.length_le
        apply List.monotone_filter_right
        intro x hx
        simp only [decide_eq_true_eq] at hx ⊢
        exact fun hxs => hx (List.mem_cons_of_mem _ hxs)
      simp only [List.filter_cons, h1, h2]
      simp only [Bool.false_eq_true, if_false, if_true, List.length_cons]
      omega
    · have ha' : a ∈ l' := by
        rcases List.mem_cons.mp ha with h | h
        · exact absurd h.symm hb
        · exact h
      have hcond : (decide (b ∉ a :: s)) = (decide (b ∉ s)) := by
        by_cases hbs : b ∈ s
        · simp [hbs, List.mem_cons]
        · simp [hbs, List.mem_cons, hb]
      rcases hcase : decide (b ∉ s) with _ | _
      · simp only [List.filter_cons, hcond, hcase]
        exact ih ha'
      · simp only [List.filter_cons, hcond, hcase, List.length_cons]
        exact Nat.succ_lt_succ (ih ha')

/-- The body of `scm_find_files`'s `os.walk` loop, as a depth-first
work-list recursion.  `pth` is the caller's original `path`, `rr` the
canonical root (`realpath` in the source), `stack` the pending `dirpath`
values and `seen` the source's `seen` set.  Branches, in source order:
directory admission, opaque-symlink emission, loop protection, then
`dirnames` refiltering plus the file loop and `seen.add`. -/
def walkStack (fs : FS) (pth rr : Path) (files dirs : List Path) (force : Bool) :
    List Path → List Path → List Path
  | [], _seen => []
  | dp :: rest, seen =>
    match hlk : lookupDir fs.tree (fs.realp dp) with
    | none => walkStack fs pth rr files dirs force rest seen
    | some dfs =>
      if force = false ∧ fs.realp dp ∉ dirs then
        walkStack fs pth rr files dirs force rest seen
      else if fs.isLink dp = true ∧ startsWithPardir (relp (fs.realp dp) rr) = false then
        (pth ++ relp dp pth) :: walkStack fs pth rr files dirs force rest seen
      else if hseen : fs.realp dp ∈ seen then
        walkStack fs pth rr files dirs force rest seen
      else
        emitFiles fs pth rr files force dp (fs.realp dp) dfs.2 ++
          walkStack fs pth rr files dirs force
            (((keptDirs fs files force (fs.realp dp) dfs.1).map fun dn => dp ++ [dn]) ++ rest)
            (fs.realp dp :: seen)
termination_by stack seen =>
  (((dirKeys fs).filter fun k => decide (k ∉ seen)).length, stack.length)
decreasing_by
  · apply Prod.Lex.right
    simp
  · apply Prod.Lex.right
    simp
  · apply Prod.Lex.right
    simp
  · apply Prod.Lex.right
    simp
  · apply Prod.Lex.left
    exact length_filter_not_mem_cons_lt (mem_dirKeys_of_lookupDir hlk) hseen

/-- Model of `scm_find_files(path, scm_files, scm_dirs, force_all_files)`: the walk
starts at the canonical root string and with an empty `seen` set. -/
def scm_find_files (fs : FS) (pth : Path) (files dirs : List Path)
    (force : Bool) : List Path :=
  walkStack fs pth (fs.realp pth) files dirs force [fs.realp pth] []

section StepLemmas

variable {fs : FS} {pth rr : Path} {files dirs : List Path} {force : Bool}
  {dp : Path} {rest seen : List Path}

theorem walkStack_nil : walkStack fs pth rr files dirs force [] seen = [] := by
  rw [walkStack]

theorem walkStack_none (hlk : lookupDir fs.tree (fs.realp dp) = none) :
    walkStack fs pth rr files dirs force (dp :: rest) seen =
      walkStack fs pth rr files dirs force rest seen := by
  rw [walkStack, hlk]

theorem walkStack_pruned {dfs} (hlk : lookupDir fs.tree (fs.realp dp) = some dfs)
    (h : force = false ∧ fs.realp dp ∉ dirs) :
    walkStack fs pth rr files dirs force (dp :: rest) seen =
      walkStack fs pth rr files dirs force rest seen := by
  rw [walkStack, hlk]
  simp only [if_pos h]

theorem walkStack_link {dfs} (hlk : lookupDir fs.tree (fs.realp dp) = some dfs)
    (h1 : ¬(force = false ∧ fs.realp dp ∉ dirs))
    (h2 : fs.isLink dp = true ∧ startsWithPardir (relp (fs.realp dp) rr) = false) :
    walkStack fs pth rr files dirs force (dp :: rest) seen =
      (pth ++ relp dp pth) :: walkStack fs pth rr files dirs force rest seen := by
  rw [walkStack, hlk]
  simp only [if_neg h1, if_pos h2]

theorem walkStack_seen {dfs} (hlk : lookupDir fs.tree (fs.realp dp) = some dfs)
    (h1 : ¬(force = false ∧ fs.realp dp ∉ dirs))
    (h2 : ¬(fs.isLink dp = true ∧ startsWithPardir (relp (fs.realp dp) rr) = false))
    (h3 : fs.realp dp ∈ seen) :
    walkStack fs pth rr files dirs force (dp :: rest) seen =
      walkStack fs pth rr files dirs force rest seen := by
  rw [walkStack, hlk]
  simp only [if_neg h1, if_neg h2, dif_pos h3]

theorem walkStack_descend {dfs} (hlk : lookupDir fs.tree (fs.realp dp) = some dfs)
    (h1 : ¬(force = false ∧ fs.realp dp ∉ dirs))
    (h2 : ¬(fs.isLink dp = true ∧ startsWithPardir (relp (fs.realp dp) rr) = false))
    (h3 : fs.realp dp ∉ seen) :
    walkStack fs pth rr files dirs force (dp :: rest) seen =
      emitFiles fs pth rr files force dp (fs.realp dp) dfs.2 ++
        walkStack fs pth rr files dirs force
          (((keptDirs fs files force (fs.realp dp) dfs.1).map fun dn => dp ++ [dn]) ++ rest)
          (fs.realp dp :: seen) := by
  rw [walkStack, hlk]
  simp only [if_neg h1, if_neg h2, dif_neg h3]

end StepLemmas

section Origin

variable {fs : FS} {pth rr : Path} {files dirs : List Path} {force : Bool}

/-- Characterisation of the entries the file loop emits: each comes from a
listed filename, is joined relative to the canonical root, and (unless in
force mode) is tracked and not a notebook file. -/
theorem mem_emitFiles {dp rd : Path} {fns : List String} {p : Path}
    (h : p ∈ emitFiles fs pth rr files force dp rd fns) :
    ∃ f ∈ fns, p = pth ++ relp (dp ++ [f]) rr ∧
      (force = true ∨ fs.realp (dp ++ [f]) ∈ files) ∧
      (force = true ∨ endsWithIpynb f = false) := by
  rw [emitFiles] at h
  rcases List.mem_filterMap.mp h with ⟨f, hf, hsome⟩
  refine ⟨f, hf, ?_⟩
  by_cases h1 : force = false ∧ linkNotInScm fs files rd f = true
  · rw [if_pos h1] at hsome
    exact absurd hsome (by simp)
  · rw [if_neg h1] at hsome
    by_cases h2 : force = false ∧ endsWithIpynb f = true
    · rw [if_pos h2] at hsome
      exact absurd hsome (by simp)
    · rw [if_neg h2] at hsome
      by_cases h3 : force = true ∨ fs.realp (dp ++ [f]) ∈ files
      · rw [if_pos h3] at hsome
        refine ⟨(Option.some_inj.mp hsome).symm, h3, ?_⟩
        rcases hforce : force with _ | _
        · right
          rcases hnb : endsWithIpynb f with _ | _
          · rfl
          · exact absurd ⟨hforce, hnb⟩ h2
        · exact Or.inl rfl
      · rw [if_neg h3] at hsome
        exact absurd hsome (by simp)

/-- Every entry the walk produces originates either from the
opaque-symlink branch (a symlinked directory whose canonical target does
not escape the canonical root, joined relative to the ORIGINAL root), or
from the file loop (joined relative to the canonical root and, unless in
force mode, tracked and not a notebook file). -/
theorem walkStack_origin (stack seen : List Path) :
    ∀ p ∈ walkStack fs pth rr files dirs force stack seen,
      (∃ d, p = pth ++ relp d pth ∧ fs.isLink d = true ∧
          startsWithPardir (relp (fs.realp d) rr) = false ∧
          (force = true ∨ fs.realp d ∈ dirs)) ∨
      (∃ q f, p = pth ++ relp (q ++ [f]) rr ∧
          (force = true ∨ fs.realp (q ++ [f]) ∈ files) ∧
          (force = true ∨ endsWithIpynb f = false)) := by
  induction stack, seen using walkStack.induct fs pth rr files dirs force with
  | case1 seen =>
    intro p hp
    rw [walkStack_nil] at hp
    exact absurd hp (List.not_mem_nil p)
  | case2 dp rest seen hlk ih =>
    intro p hp
    rw [walkStack_none hlk] at hp
    exact ih p hp
  | case3 dp rest seen dfs hlk hcond ih =>
    intro p hp
    rw [walkStack_pruned hlk hcond] at hp
    exact ih p hp
  | case4 dp rest seen dfs hlk h1 h2 ih =>
    intro p hp
    rw [walkStack_link hlk h1 h2] at hp
    rcases List.mem_cons.mp hp with hp | hp
    · left
      refine ⟨dp, hp, h2.1, h2.2, ?_⟩
      rcases hforce : force with _ | _
      · right
        by_contra hd
        exact h1 ⟨hforce, hd⟩
      · exact Or.inl rfl
    · exact ih p hp
  | case5 dp rest seen dfs hlk h1 h2 h3 ih =>
    intro p hp
    rw [walkStack_seen hlk h1 h2 h3] at hp
    exact ih p hp
  | case6 dp rest seen dfs hlk h1 h2 h3 ih =>
    intro p hp
    rw [walkStack_descend hlk h1 h2 h3] at hp
    rcases List.mem_append.mp hp with hp | hp
    · rcases mem_emitFiles hp with ⟨f, _, hpeq, htr, hnb⟩
      exact Or.inr ⟨dp, f, hpeq, htr, hnb⟩
    · exact ih p hp

end Origin

section ForceMode

variable {fs : FS} {pth rr : Path} {files dirs : List Path}

/-- In force mode the `dirnames` refilter keeps every subdirectory. -/
theorem keptDirs_force (rd : Path) (dns : List String) :
    keptDirs fs files true rd dns = dns := by
  simp [keptDirs]

/-- In force mode the file loop emits every listed filename. -/
theorem emitFiles_force (dp rd : Path) (fns : List String) :
    emitFiles fs pth rr files true dp rd fns =
      fns.map fun f => pth ++ relp (dp ++ [f]) rr := by
  rw [emitFiles]
  rw [show (fun f => if true = false ∧ linkNotInScm fs files rd f = true then none
      else if true = false ∧ endsWithIpynb f = true then none
      else if true = true ∨ fs.realp (dp ++ [f]) ∈ files then
        some (pth ++ relp (dp ++ [f]) rr)
      else none) = fun f => some (pth ++ relp (dp ++ [f]) rr) from by
    funext f
    simp]
  exact List.filterMap_eq_map _ ▸ rfl

/-- In force mode the walk never consults the tracked sets. -/
theorem walkStack_force (stack seen : List Path) :
    walkStack fs pth rr files dirs true stack seen =
      walkStack fs pth rr [] [] true stack seen := by
  induction stack, seen using walkStack.induct fs pth rr files dirs true with
  | case1 seen => rw [walkStack_nil, walkStack_nil]
  | case2 dp rest seen hlk ih => rw [walkStack_none hlk, walkStack_none hlk, ih]
  | case3 dp rest seen dfs hlk hcond ih => exact absurd hcond (by simp)
  | case4 dp rest seen dfs hlk h1 h2 ih =>
    rw [walkStack_link hlk h1 h2, walkStack_link hlk (by simp) h2, ih]
  | case5 dp rest seen dfs hlk h1 h2 h3 ih =>
    rw [walkStack_seen hlk h1 h2 h3, walkStack_seen hlk (by simp) h2 h3, ih]
  | case6 dp rest seen dfs hlk h1 h2 h3 ih =>
    rw [walkStack_descend hlk h1 h2 h3, walkStack_descend hlk (by simp) h2 h3,
      emitFiles_force, emitFiles_force, keptDirs_force, keptDirs_force]
    rw [keptDirs_force] at ih
    rw [ih]

end ForceMode

section Completeness

variable {fs : FS} {pth rr : Path} {files dirs : List Path}

theorem filenamesOf_lookup {m : Path} {f : String} (h : f ∈ filenamesOf fs m) :
    ∃ dfs, lookupDir fs.tree m = some dfs ∧ f ∈ dfs.2 := by
  rw [filenamesOf] at h
  rcases hlk : lookupDir fs.tree m with _ | dfs
  · rw [hlk] at h
    exact absurd h (List.not_mem_nil f)
  · rw [hlk] at h
    exact ⟨dfs, rfl, h⟩

theorem RealSub_lookup {d m : Path} (h : RealSub fs d m)
    (hm : ∃ dfs, lookupDir fs.tree m = some dfs) :
    ∃ dfs, lookupDir fs.tree d = some dfs := by
  cases h with
  | refl d => exact hm
  | step dn dns fns hlk hdn hnl hre hrest => exact ⟨(dns, fns), hlk⟩

theorem RealSub_extends {d m : Path} (h : RealSub fs d m) : d <+: m := by
  induction h with
  | refl d1 => exact List.prefix_refl d1
  | @step d1 m1 dn dns fns hlk hdn hnl hre hrest ih =>
    exact (List.prefix_append d1 [dn]).trans ih

/-- Every textual prefix `r` between `d` and `m` is itself a node of the
plain-subdirectory chain from `d` to `m` (the chain steps one component
at a time, so it passes through every intermediate prefix). -/
theorem RealSub_restrict {d m : Path} (h : RealSub fs d m) :
    ∀ r, d <+: r → r <+: m → RealSub fs r m := by
  induction h with
  | refl d1 =>
    intro r h1 h2
    have hrd : r = d1 := h2.eq_of_length (Nat.le_antisymm h2.length_le h1.length_le)
    subst hrd
    exact RealSub.refl r
  | @step d1 m1 dn dns fns hlk hdn hnl hre hrest ih =>
    intro r h1 h2
    by_cases hrd : r = d1
    · subst hrd
      exact RealSub.step dn dns fns hlk hdn hnl hre hrest
    · have hdm := RealSub_extends hrest
      have hlen : (d1 ++ [dn]).length ≤ r.length := by
        have hlt : d1.length < r.length :=
          Nat.lt_of_le_of_ne h1.length_le fun he => hrd (h1.eq_of_length he).symm
        simp
        omega
      exact ih r (List.prefix_of_prefix_length_le hdm h2 hlen) h2

/-- Completeness of the walk in force mode: if some pending work-list
entry resolves to the canonical directory `d` and is not itself a symlink,
and `m` is reached from `d` through plain subdirectory entries none of
whose chain nodes have been visited yet, then every file listed in `m` is
emitted (through some textual path resolving to `m`).  The two
hypotheses `hW2`/`hW3` are realpath laws of a real filesystem: resolving
a child path is resolving the resolved parent's child, and being a
symlink is a property of the resolved parent's entry. -/
theorem walkStack_force_complete (fs : FS) (pth rr : Path) (files dirs : List Path)
    (hW2 : ∀ q n, fs.realp (q ++ [n]) = fs.realp (fs.realp q ++ [n]))
    (hW3 : ∀ q n, fs.isLink (q ++ [n]) = fs.isLink (fs.realp q ++ [n]))
    (stack seen : List Path) :
    ∀ d m : Path, ∀ f : String,
      RealSub fs d m → f ∈ filenamesOf fs m →
      (∃ dp, dp ∈ stack ∧ fs.realp dp = d ∧ fs.isLink dp = false) →
      (∀ n : Path, d <+: n → n <+: m → n ∉ seen) →
      ∃ dp2, fs.realp dp2 = m ∧
        (pth ++ relp (dp2 ++ [f]) rr) ∈
          walkStack fs pth rr files dirs true stack seen := by
  induction stack, seen using walkStack.induct fs pth rr files dirs true with
  | case1 seen =>
    intro d m f hsub hf hw hns
    rcases hw with ⟨dp, hdp, _, _⟩
    exact absurd hdp (List.not_mem_nil dp)
  | case2 dp0 rest seen hlk ih =>
    intro d m f hsub hf hw hns
    rcases hw with ⟨dp, hdp, hreal, hlink⟩
    rcases List.mem_cons.mp hdp with rfl | hdp'
    · rcases filenamesOf_lookup hf with ⟨dfs2, hlk2, _⟩
      rcases RealSub_lookup hsub ⟨dfs2, hlk2⟩ with ⟨dfs1, hlk1⟩
      rw [hreal, hlk1] at hlk
      exact absurd hlk (by simp)
    · rw [walkStack_none hlk]
      exact ih d m f hsub hf ⟨dp, hdp', hreal, hlink⟩ hns
  | case3 dp0 rest seen dfs hlk hcond ih =>
    exact absurd hcond (by simp)
  | case4 dp0 rest seen dfs hlk h1 h2 ih =>
    intro d m f hsub hf hw hns
    rcases hw with ⟨dp, hdp, hreal, hlink⟩
    rcases List.mem_cons.mp hdp with rfl | hdp'
    · exact absurd h2.1 (by simp [hlink])
    · rw [walkStack_link hlk h1 h2]
      rcases ih d m f hsub hf ⟨dp, hdp', hreal, hlink⟩ hns with ⟨dp2, hdp2, hmem⟩
      exact ⟨dp2, hdp2, List.mem_cons_of_mem _ hmem⟩
  | case5 dp0 rest seen dfs hlk h1 h2 h3 ih =>
    intro d m f hsub hf hw hns
    rcases hw with ⟨dp, hdp, hreal, hlink⟩
    rcases List.mem_cons.mp hdp with rfl | hdp'
    · exact absurd (hreal ▸ h3) (hns d (List.prefix_refl d) (RealSub_extends hsub))
    · rw [walkStack_seen hlk h1 h2 h3]
      exact ih d m f hsub hf ⟨dp, hdp', hreal, hlink⟩ hns
  | case6 dp0 rest seen dfs hlk h1 h2 h3 ih =>
    intro d m f hsub hf hw hns
    rw [walkStack_descend hlk h1 h2 h3]
    by_cases hchain : d <+: fs.realp dp0 ∧ fs.realp dp0 <+: m
    · have hsubr : RealSub fs (fs.realp dp0) m :=
        RealSub_restrict hsub (fs.realp dp0) hchain.1 hchain.2
      by_cases hrm : fs.realp dp0 = m
      · rcases filenamesOf_lookup hf with ⟨dfs2, hlk2, hf2⟩
        have hdfs : dfs = dfs2 := by
          rw [hrm, hlk2] at hlk
          exact (Option.some_inj.mp hlk).symm
        refine ⟨dp0, hrm, List.mem_append_left _ ?_⟩
        rw [emitFiles_force]
        exact List.mem_map_of_mem _ (hdfs ▸ hf2)
      · cases hsubr with
        | refl => exact absurd rfl hrm
        | step dn' dns' fns' hlkr hdn' hnl' hre' hrest' =>
          have hdfs : dfs = (dns', fns') := by
            rw [hlkr] at hlk
            exact (Option.some_inj.mp hlk).symm
          have hwit : dp0 ++ [dn'] ∈
              ((keptDirs fs files true (fs.realp dp0) dfs.1).map fun dn => dp0 ++ [dn])
                ++ rest := by
            apply List.mem_append_left
            rw [keptDirs_force, hdfs]
            exact List.mem_map_of_mem _ hdn'
          have hns' : ∀ n : Path, (fs.realp dp0 ++ [dn']) <+: n → n <+: m →
              n ∉ fs.realp dp0 :: seen := by
            intro n hn1 hn2 hmem
            rcases List.mem_cons.mp hmem with rfl | hmem'
            · have := hn1.length_le
              simp at this
            · exact hns n
                (hchain.1.trans ((List.prefix_append _ _).trans hn1)) hn2 hmem'
          rcases ih (fs.realp dp0 ++ [dn']) m f hrest' hf
              ⟨dp0 ++ [dn'], hwit, (hW2 dp0 dn').trans hre', (hW3 dp0 dn').trans hnl'⟩
              hns' with ⟨dp2, hdp2, hmem⟩
          exact ⟨dp2, hdp2, List.mem_append_right _ hmem⟩
    · rcases hw with ⟨dp, hdp, hreal, hlink⟩
      rcases List.mem_cons.mp hdp with rfl | hdp'
      · exact absurd
          (by rw [hreal]; exact ⟨List.prefix_refl d, RealSub_extends hsub⟩) hchain
      · have hns' : ∀ n : Path, d <+: n → n <+: m → n ∉ fs.realp dp0 :: seen := by
          intro n hn1 hn2 hmem
          rcases List.mem_cons.mp hmem with rfl | hmem'
          · exact hchain ⟨hn1, hn2⟩
          · exact hns n hn1 hn2 hmem'
        rcases ih d m f hsub hf
            ⟨dp, List.mem_append_right _ hdp', hreal, hlink⟩ hns' with ⟨dp2, hdp2, hmem⟩
        exact ⟨dp2, hdp2, List.mem_append_right _ hmem⟩

end Completeness

/-! ### `is_toplevel_acceptable` -/

/-- Python `str.split(sep)` for a one-character separator, over the
character list: `"".split(sep) == [""]`, and separators at either end
produce empty fields, exactly as in Python. -/
def splitSep (sep : Char) : List Char → String → List String
  | [], acc => [acc]
  | c :: cs, acc =>
    if c = sep then acc :: splitSep sep cs "" else splitSep sep cs (acc.push c)

/-- Model of `os.path.normcase` (POSIX: the identity). -/
def normcase (s : String) : String := s

/-- Model of `os.pathsep` (POSIX). -/
def pathsep : Char := ':'

/-- Model of `is_toplevel_acceptable(toplevel)`: the value of the environment
variable `SETUPTOOLS_SCM_IGNORE_VCS_ROOTS` is passed explicitly, with
`none` modelling an unset variable (the source reads
`os.environ.get(..., "")`). -/
def is_toplevel_acceptable (env : Option String) (toplevel : Option String) : Bool :=
  match toplevel with
  | none => false
  | some t =>
    let ignored := splitSep pathsep (env.getD "").toList ""
    let ignored2 := ignored.map normcase
    decide (t ∉ ignored2)

/-! ### Concrete filesystems for the spec's scenarios and counterexamples -/

/-- Root given as the empty (relative) path, canonicalising to `cw/p`,
which contains the single regular file `notebook.ipynb`. -/
def fsNB : FS where
  realp := fun p => if p = ([] : Path) then ["cw", "p"] else p
  isLink := fun _ => false
  tree := [(["cw", "p"], ([], ["notebook.ipynb"]))]

/-- Root `r` containing `ln`, a symlink to the (empty) directory `r/t`
inside the root; `r/ln` is tracked under its unresolved name. -/
def fsLn : FS where
  realp := fun p => if p = ["r", "ln"] then ["r", "t"] else p
  isLink := fun p => decide (p = ["r", "ln"])
  tree := [(["r"], (["ln"], [])), (["r", "t"], ([], []))]

/-- The walk is invoked on the original root string `h/plink` (itself a
symlink) canonicalising to `real`, which contains `sub`, a symlink to the
directory `real/tg` inside the root. -/
def fsOrig : FS where
  realp := fun p =>
    if p = ["h", "plink"] then ["real"]
    else if p = ["real", "sub"] then ["real", "tg"]
    else p
  isLink := fun p => decide (p = ["real", "sub"])
  tree := [(["real"], (["sub"], [])), (["real", "tg"], ([], []))]

/-- A symlink-free filesystem (realpath is the identity): root `cw` holds
the file `a.py` and the plain subdirectory `sub`, which holds the notebook
file `b.ipynb`. -/
def fsPlain : FS where
  realp := fun p => p
  isLink := fun _ => false
  tree := [(["cw"], (["sub"], ["a.py"])), (["cw", "sub"], ([], ["b.ipynb"]))]

/-- Scenario D: the root (original path `[]`, canonical `r`) contains
`link`, a symlink to the directory `o/tgt` outside the root, which holds
the file `f.txt`. -/
def fsEsc : FS where
  realp := fun p =>
    if p = ([] : Path) then ["r"]
    else if p = ["r", "link"] then ["o", "tgt"]
    else if p = ["r", "link", "f.txt"] then ["o", "tgt", "f.txt"]
    else p
  isLink := fun p => decide (p = ["r", "link"])
  tree := [(["r"], (["link"], [])), (["o", "tgt"], ([], ["f.txt"]))]

/-! ### Claims -/

/-- Claim C1: with `forceAll = false`, a directory whose canonical path is
absent from the tracked-directory set contributes nothing to the result —
its whole subtree is skipped, whatever the tracked-file set contains. -/
theorem walk_prunes_untracked_dir (fs : FS) (pth rr : Path)
    (files dirs : List Path) (dp : Path) (rest seen : List Path)
    (h : fs.realp dp ∉ dirs) :
    walkStack fs pth rr files dirs false (dp :: rest) seen =
      walkStack fs pth rr files dirs false rest seen := by
  rcases hlk : lookupDir fs.tree (fs.realp dp) with _ | dfs
  · exact walkStack_none hlk
  · exact walkStack_pruned hlk ⟨rfl, h⟩

theorem walk_prunes_untracked_dir_witness :
    fsNB.realp ["x"] ∉ ([] : List Path) ∧
      walkStack fsNB [] ["cw", "p"] [] [] false [["x"]] [] =
        walkStack fsNB [] ["cw", "p"] [] [] false [] [] :=
  ⟨by decide, walk_prunes_untracked_dir fsNB [] ["cw", "p"] [] [] ["x"] [] [] (by decide)⟩

/-- Claim C2 counterexample: the walk on `fsLn` emits the symlinked directory
`r/ln` although its canonical form `r/t` is not in the tracked-file set,
its canonical target is NOT outside the root's subtree (the relative path
from the canonical root starts with no `".."`), and force mode is off —
so an emitted entry need not satisfy the claim's three-way disjunction. -/
theorem walk_emission_invariant_cex :
    scm_find_files fsLn ["r"] [["r", "ln"]] [["r"], ["r", "t"]] false = [["r", "ln"]] ∧
    ¬(fsLn.realp ["r", "ln"] ∈ [(["r", "ln"] : Path)] ∨
        (fsLn.isLink ["r", "ln"] = true ∧
          startsWithPardir (relp (fsLn.realp ["r", "ln"]) (fsLn.realp ["r"])) = true) ∨
        false = true) := by
  constructor
  · simp +decide [scm_find_files, walkStack, fsLn, lookupDir, emitFiles, keptDirs,
      linkNotInScm, endsWithIpynb, relp, commonLen, startsWithPardir, joinSlash]
  · decide

/-- Claim C2, amended: every emitted path either comes from force mode, or is
an opaque entry for a symlinked directory whose canonical target does NOT
lie outside the root's subtree, or is a file entry whose canonical form is
in the tracked-file set. -/
theorem walk_emission_invariant (fs : FS) (pth : Path) (files dirs : List Path)
    (force : Bool) (p : Path) (hp : p ∈ scm_find_files fs pth files dirs force) :
    force = true ∨
      (∃ d, p = pth ++ relp d pth ∧ fs.isLink d = true ∧
        startsWithPardir (relp (fs.realp d) (fs.realp pth)) = false) ∨
      (∃ q f, p = pth ++ relp (q ++ [f]) (fs.realp pth) ∧
        fs.realp (q ++ [f]) ∈ files) := by
  rw [scm_find_files] at hp
  rcases walkStack_origin _ _ p hp with ⟨d, hd1, hd2, hd3, _⟩ | ⟨q, f, hq1, hq2, _⟩
  · exact Or.inr (Or.inl ⟨d, hd1, hd2, hd3⟩)
  · rcases hq2 with h | h
    · exact Or.inl h
    · exact Or.inr (Or.inr ⟨q, f, hq1, h⟩)

theorem walk_emission_invariant_witness :
    false = true ∨
      (∃ d, (["r", "ln"] : Path) = ["r"] ++ relp d ["r"] ∧ fsLn.isLink d = true ∧
        startsWithPardir (relp (fsLn.realp d) (fsLn.realp ["r"])) = false) ∨
      (∃ q f, (["r", "ln"] : Path) = ["r"] ++ relp (q ++ [f]) (fsLn.realp ["r"]) ∧
        fsLn.realp (q ++ [f]) ∈ [(["r", "ln"] : Path)]) :=
  walk_emission_invariant fsLn ["r"] [["r", "ln"]] [["r"], ["r", "t"]] false ["r", "ln"]
    (by simp +decide [scm_find_files, walkStack, fsLn, lookupDir, emitFiles, keptDirs,
      linkNotInScm, endsWithIpynb, relp, commonLen, startsWithPardir, joinSlash])

/-- Claim C3 counterexample: in force mode, with both tracked sets empty, the
walk DOES emit the notebook file — force mode bypasses the
notebook-suffix exclusion instead of preserving it. -/
theorem force_mode_notebook_cex :
    scm_find_files fsNB [] [] [] true = [["notebook.ipynb"]] ∧
      endsWithIpynb "notebook.ipynb" = true := by
  constructor
  · simp +decide [scm_find_files, walkStack, fsNB, lookupDir, emitFiles, keptDirs,
      linkNotInScm, endsWithIpynb, relp, commonLen, startsWithPardir, joinSlash]
  · decide

/-- Claim C3, amended: with `forceAll = true`, every regular file under
root — every file listed in a directory reachable from the canonical root
through plain (non-symlink) subdirectory entries — appears in the result,
with no exception for notebook-suffix files (force mode bypasses the
`.ipynb` exclusion), and the result is independent of the tracked sets'
contents (it equals the result with both sets empty).  The hypotheses are
realpath laws any real filesystem satisfies: resolving a child resolves
the resolved parent's child, symlink-ness is a property of the resolved
parent's entry, the canonical root is realpath-fixed and not a symlink. -/
theorem force_mode_totality (fs : FS) (pth : Path) (files dirs : List Path)
    (hW2 : ∀ q n, fs.realp (q ++ [n]) = fs.realp (fs.realp q ++ [n]))
    (hW3 : ∀ q n, fs.isLink (q ++ [n]) = fs.isLink (fs.realp q ++ [n]))
    (hrr : fs.realp (fs.realp pth) = fs.realp pth)
    (hrl : fs.isLink (fs.realp pth) = false) :
    scm_find_files fs pth files dirs true = scm_find_files fs pth [] [] true ∧
    ∀ m f, RealSub fs (fs.realp pth) m → f ∈ filenamesOf fs m →
      ∃ dp, fs.realp dp = m ∧
        (pth ++ relp (dp ++ [f]) (fs.realp pth)) ∈
          scm_find_files fs pth files dirs true := by
  constructor
  · rw [scm_find_files, scm_find_files]
    exact walkStack_force _ _
  · intro m f hsub hf
    rw [scm_find_files]
    exact walkStack_force_complete fs pth (fs.realp pth) files dirs hW2 hW3
      [fs.realp pth] [] (fs.realp pth) m f hsub hf
      ⟨fs.realp pth, List.mem_singleton.mpr rfl, hrr, hrl⟩
      (fun n _ _ hn => absurd hn (List.not_mem_nil n))

theorem force_mode_totality_witness :
    scm_find_files fsPlain ["cw"] [["x"]] [["y"]] true =
        scm_find_files fsPlain ["cw"] [] [] true ∧
    ∀ m f, RealSub fsPlain (fsPlain.realp ["cw"]) m → f ∈ filenamesOf fsPlain m →
      ∃ dp, fsPlain.realp dp = m ∧
        (["cw"] ++ relp (dp ++ [f]) (fsPlain.realp ["cw"])) ∈
          scm_find_files fsPlain ["cw"] [["x"]] [["y"]] true :=
  force_mode_totality fsPlain ["cw"] [["x"]] [["y"]]
    (fun _ _ => rfl) (fun _ _ => rfl) rfl rfl

/-- Claim C4: the root contains the tracked file `notebook.ipynb` and the root
itself is tracked; with `forceAll = false` the result is empty (the
notebook-suffix exclusion overrides tracking), and with `forceAll = true`
the result is exactly `["notebook.ipynb"]`. -/
theorem notebook_scenario :
    scm_find_files fsNB [] [["cw", "p", "notebook.ipynb"]] [["cw", "p"]] false = [] ∧
    scm_find_files fsNB [] [["cw", "p", "notebook.ipynb"]] [["cw", "p"]] true =
      [["notebook.ipynb"]] := by
  constructor
  · simp +decide [scm_find_files, walkStack, fsNB, lookupDir, emitFiles, keptDirs,
      linkNotInScm, endsWithIpynb, relp, commonLen, startsWithPardir, joinSlash]
  · simp +decide [scm_find_files, walkStack, fsNB, lookupDir, emitFiles, keptDirs,
      linkNotInScm, endsWithIpynb, relp, commonLen, startsWithPardir, joinSlash]

/-- Claim C5: a symlinked directory that passed the admission check and whose
canonical target does not escape the canonical root is emitted as exactly
one entry, and nothing below it is walked — whatever the tracked-file set
says about its contents. -/
theorem tracked_symlink_dir_single_entry (fs : FS) (pth rr : Path)
    (files dirs : List Path) (force : Bool) (dp : Path) (rest seen : List Path)
    (dfs : List String × List String)
    (hlk : lookupDir fs.tree (fs.realp dp) = some dfs)
    (hadm : force = false → fs.realp dp ∈ dirs)
    (hl : fs.isLink dp = true)
    (hin : startsWithPardir (relp (fs.realp dp) rr) = false) :
    walkStack fs pth rr files dirs force (dp :: rest) seen =
      (pth ++ relp dp pth) :: walkStack fs pth rr files dirs force rest seen := by
  apply walkStack_link hlk _ ⟨hl, hin⟩
  rintro ⟨h1, h2⟩
  exact h2 (hadm h1)

theorem tracked_symlink_dir_single_entry_witness :
    walkStack fsLn ["r"] ["r"] [["r", "ln"]] [["r"], ["r", "t"]] false
        [["r", "ln"]] [["r"]] =
      (["r"] ++ relp ["r", "ln"] ["r"]) ::
        walkStack fsLn ["r"] ["r"] [["r", "ln"]] [["r"], ["r", "t"]] false [] [["r"]] :=
  tracked_symlink_dir_single_entry fsLn ["r"] ["r"] [["r", "ln"]] [["r"], ["r", "t"]]
    false ["r", "ln"] [] [["r"]] ([], []) (by decide) (by decide) (by decide) (by decide)

/-- Claim C6 counterexample: in Scenario D (tracked escaping symlink `link` to
`o/tgt`, `trackedDirs = {root}`) the result is NOT `["link"]`: the
escaping symlink falls through to normal directory processing, where the
admission check prunes it with no emission, so the result is empty. -/
theorem escaping_symlink_scenario_cex :
    scm_find_files fsEsc [] [["r", "link"], ["o", "tgt"]] [["r"]] false ≠
      [["link"]] := by
  simp +decide [scm_find_files, walkStack, fsEsc, lookupDir, emitFiles, keptDirs,
    linkNotInScm, endsWithIpynb, relp, commonLen, startsWithPardir, joinSlash]

/-- Claim C6, amended: in Scenario D the walk returns the empty result — the
escaping symlink is not emitted opaquely, and its canonical target is not
in the tracked-directory set, so the admission check prunes it entirely;
in particular nothing from inside `o/tgt` appears. -/
theorem escaping_symlink_scenario :
    scm_find_files fsEsc [] [["r", "link"], ["o", "tgt"]] [["r"]] false = [] := by
  simp +decide [scm_find_files, walkStack, fsEsc, lookupDir, emitFiles, keptDirs,
    linkNotInScm, endsWithIpynb, relp, commonLen, startsWithPardir, joinSlash]

/-- Claim C7: a directory whose canonical path is already in the `seen` set
(and which is not caught earlier by the opaque-symlink branch) is not
descended into again and contributes nothing to the result; together with
the fact that `walkStack` is a total function over any finite filesystem,
this is the loop protection of the walk. -/
theorem seen_dir_not_revisited (fs : FS) (pth rr : Path) (files dirs : List Path)
    (force : Bool) (dp : Path) (rest seen : List Path)
    (h2 : ¬(fs.isLink dp = true ∧ startsWithPardir (relp (fs.realp dp) rr) = false))
    (h3 : fs.realp dp ∈ seen) :
    walkStack fs pth rr files dirs force (dp :: rest) seen =
      walkStack fs pth rr files dirs force rest seen := by
  rcases hlk : lookupDir fs.tree (fs.realp dp) with _ | dfs
  · exact walkStack_none hlk
  · by_cases h1 : force = false ∧ fs.realp dp ∉ dirs
    · exact walkStack_pruned hlk h1
    · exact walkStack_seen hlk h1 h2 h3

theorem seen_dir_not_revisited_witness :
    walkStack fsLn ["r"] ["r"] [["r", "ln"]] [["r"], ["r", "t"]] false
        [["r", "t"]] [["r", "t"]] =
      walkStack fsLn ["r"] ["r"] [["r", "ln"]] [["r"], ["r", "t"]] false [] [["r", "t"]] :=
  seen_dir_not_revisited fsLn ["r"] ["r"] [["r", "ln"]] [["r"], ["r", "t"]] false
    ["r", "t"] [] [["r", "t"]] (by decide) (by decide)

/-- Claim C8: with `forceAll = false`, an entry that is a symlink and whose
test path (canonical parent directory joined with the case-normalised
entry name, as `_link_not_in_scm` builds it) is absent from the
tracked-file set is dropped both by the subdirectory refilter and by the
file loop — the same exclusion rule at both places. -/
theorem untracked_symlink_excluded (fs : FS) (pth rr : Path) (files : List Path)
    (dp rd : Path) (n : String) (dns fns : List String)
    (hl : fs.isLink (rd ++ [n]) = true) (hm : (rd ++ [n]) ∉ files) :
    keptDirs fs files false rd (n :: dns) = keptDirs fs files false rd dns ∧
    emitFiles fs pth rr files false dp rd (n :: fns) =
      emitFiles fs pth rr files false dp rd fns := by
  have hln : linkNotInScm fs files rd n = true := by
    simp [linkNotInScm, hl, hm]
  constructor
  · simp [keptDirs, hln]
  · rw [emitFiles, emitFiles, List.filterMap_cons]
    simp [hln]

theorem untracked_symlink_excluded_witness :
    keptDirs fsLn [] false ["r"] ["ln", "dd"] = keptDirs fsLn [] false ["r"] ["dd"] ∧
    emitFiles fsLn ["r"] ["r"] [] false ["r"] ["r"] ["ln", "a.py"] =
      emitFiles fsLn ["r"] ["r"] [] false ["r"] ["r"] ["a.py"] :=
  untracked_symlink_excluded fsLn ["r"] ["r"] [] ["r"] ["r"] "ln" ["dd"] ["a.py"]
    (by decide) (by decide)

/-- Claim C9 counterexample: on `fsOrig` the caller's root string `h/plink`
differs from the canonical root `real`; the opaque entry emitted for the
symlinked directory `real/sub` is joined with the path relative to the
ORIGINAL root string, which is not the claim's
"original root ++ path relative to the canonical root". -/
theorem emitted_path_form_cex :
    scm_find_files fsOrig ["h", "plink"] [["real", "sub"]] [["real"], ["real", "tg"]]
        false = [["h", "plink", "..", "..", "real", "sub"]] ∧
    (["h", "plink", "..", "..", "real", "sub"] : Path) ≠
      ["h", "plink"] ++ relp ["real", "sub"] (fsOrig.realp ["h", "plink"]) := by
  constructor
  · simp +decide [scm_find_files, walkStack, fsOrig, lookupDir, emitFiles, keptDirs,
      linkNotInScm, endsWithIpynb, relp, commonLen, startsWithPardir, joinSlash]
  · decide

/-- Claim C9, amended: every emitted path is the original root string joined
with a relative path — file entries relative to the CANONICAL root, but
opaque symlinked-directory entries relative to the ORIGINAL root string. -/
theorem emitted_path_forms (fs : FS) (pth : Path) (files dirs : List Path)
    (force : Bool) (p : Path) (hp : p ∈ scm_find_files fs pth files dirs force) :
    (∃ q f, p = pth ++ relp (q ++ [f]) (fs.realp pth)) ∨
    (∃ d, fs.isLink d = true ∧ p = pth ++ relp d pth) := by
  rw [scm_find_files] at hp
  rcases walkStack_origin _ _ p hp with ⟨d, hd1, hd2, _, _⟩ | ⟨q, f, hq1, _, _⟩
  · exact Or.inr ⟨d, hd2, hd1⟩
  · exact Or.inl ⟨q, f, hq1⟩

theorem emitted_path_forms_witness :
    (∃ q f, (["h", "plink", "..", "..", "real", "sub"] : Path) =
        ["h", "plink"] ++ relp (q ++ [f]) (fsOrig.realp ["h", "plink"])) ∨
    (∃ d, fsOrig.isLink d = true ∧
        (["h", "plink", "..", "..", "real", "sub"] : Path) =
          ["h", "plink"] ++ relp d ["h", "plink"]) :=
  emitted_path_forms fsOrig ["h", "plink"] [["real", "sub"]] [["real"], ["real", "tg"]]
    false ["h", "plink", "..", "..", "real", "sub"]
    (by simp +decide [scm_find_files, walkStack, fsOrig, lookupDir, emitFiles, keptDirs,
      linkNotInScm, endsWithIpynb, relp, commonLen, startsWithPardir, joinSlash])

/-- Claim C10: `is_toplevel_acceptable` rejects `None`; with the deny-list
environment value unset or empty, splitting on the path separator yields
exactly `[""]`, so the empty-string toplevel is rejected and every other
toplevel is accepted. -/
theorem toplevel_acceptable_empty_env (e : Option String) (t : String)
    (he : e = none ∨ e = some "") (ht : t ≠ "") :
    is_toplevel_acceptable e none = false ∧
    (splitSep pathsep (e.getD "").toList "").map normcase = [""] ∧
    is_toplevel_acceptable e (some "") = false ∧
    is_toplevel_acceptable e (some t) = true := by
  rcases he with he | he <;> subst he <;>
    refine ⟨rfl, rfl, rfl, ?_⟩ <;>
    simp [is_toplevel_acceptable, splitSep, pathsep, normcase, ht]

theorem toplevel_acceptable_empty_env_witness :
    is_toplevel_acceptable none none = false ∧
    (splitSep pathsep ((none : Option String).getD "").toList "").map normcase = [""] ∧
    is_toplevel_acceptable none (some "") = false ∧
    is_toplevel_acceptable none (some "src") = true :=
  toplevel_acceptable_empty_env none "src" (Or.inl rfl) (by decide)

end FileFinder
